import Mathlib

/-!
A verification development for the fststr python module (file fststr/fststr.py).

Modelling conventions (shallow embedding):
* Python strings are modelled as `List Char`; a symbol of the alphabet is a `List Char`.
* The pywrapfst automaton is modelled by `Fst`: a start state, a list of per-state arc
  lists (state q carries the arcs `states.getD q []`, so a state id that is out of range
  simply has no outgoing arcs), and the attached input symbol table, modelled as a list
  of symbol strings where the code of a symbol is its index (this is exactly the table
  shape produced by `symbols_table_from_alphabet`, which assigns `<epsilon>` the code 0
  and the i-th alphabet symbol the code i+1).  Arc weights (always the semiring one /
  0.0 in the python code) are not carried, no claim concerns them.
* Python loops that are not structurally terminating are given a fuel parameter; the
  fuel chosen by the top-level wrappers is large enough that it is exhausted only in
  situations where the python code itself would not terminate (this correspondence is
  noted at each definition).
* Exceptions are modelled with `Except String`/sum-like result types; the python
  functions that mutate an automaton in place are modelled as returning the mutated
  automaton.
* The inner `dfs` of `all_strings_from_chain` accumulates into a mutable
  default-valued list object `paths=[]` that its recursion threads along explicitly
  (modelled by the accumulator argument of `dfsPaths`).  The `def dfs(..., paths=[])`
  statement is nested inside `all_strings_from_chain`, so python re-creates the
  default list at every invocation of the outer function: no accumulator content
  survives from one invocation to the next, every invocation starts from `[]`, and
  the model is a pure function of the automaton.
* The cyclicity test `automaton.properties(fst.CYCLIC, True)` is a primitive of the
  external automaton engine (pywrapfst/OpenFST), not code of this repository; it is
  modelled, following the spec (section 6: a cyclicity test over the reachable
  subgraph), as an executable reachable-cycle test `cyclicB`, proved equivalent to the
  existence of a reachable cycle.
-/

namespace FstStr

/-- A python string, as a list of characters. -/
abbrev Sym : Type := List Char

/-- Shorthand used by concrete examples below. -/
def chars (s : String) : Sym := s.data

/-! ### Tokenizer: `string_to_symbol_list` (fststr.py lines 58-80) -/

/-- The relation by which python sorts the symbol list: `sorted(symbols, key=len,
reverse=True)` puts symbols of greater length first.  (python's sort is stable; the
order kept among symbols of equal length cannot influence tokenization, because two
distinct symbols of the same length are never both literal head segments of the same
remaining input.) -/
def lenGE (a b : Sym) : Prop := b.length ≤ a.length

instance : DecidableRel lenGE := fun a b => Nat.decLe b.length a.length

instance : IsTotal Sym lenGE := ⟨fun a b => Nat.le_total b.length a.length⟩

instance : IsTrans Sym lenGE := ⟨fun _ _ _ h1 h2 => Nat.le_trans h2 h1⟩

/-- `sorted(symbols, key=len, reverse=True)` of fststr.py line 69. -/
def sortSymbols (symbols : List Sym) : List Sym := List.insertionSort lenGE symbols

/-- The inner `for symbol in symbols: if symbol == string[0:len(symbol)]` scan of
fststr.py lines 72-77: the first symbol of the (length-sorted) list that is a literal
head segment of `s`. -/
def firstMatch : List Sym → List Char → Option Sym
  | [], _ => none
  | y :: ys, s => if y = List.take y.length s then some y else firstMatch ys s

/-- Result of `string_to_symbol_list`: either the element list, or the
`IllegalSymbol` exception carrying the remaining substring (fststr.py line 79), or
divergence of the `while string:` loop (which the python code exhibits exactly when a
matched symbol is empty, so that no characters are consumed). -/
inductive TokResult : Type
  | ok (elements : List Sym)
  | illegal (remaining : List Char)
  | hang
deriving DecidableEq

/-- The `while string:` loop of fststr.py lines 70-79.  `elements.append(symbol)` is
`elements ++ [y]`; `string = string[len(symbol):]` is `List.drop y.length s`.  One unit
of fuel is spent per iteration; the wrapper passes `s.length` fuel, which suffices for
every terminating run because each iteration of a terminating run consumes at least one
character. -/
def tokenizeLoop (sorted : List Sym) : Nat → List Sym → List Char → TokResult
  | 0 => fun elements s =>
    match s with
    | [] => .ok elements
    | _ :: _ => .hang
  | fuel + 1 => fun elements s =>
    match s with
    | [] => .ok elements
    | _ :: _ =>
      match firstMatch sorted s with
      | none => .illegal s
      | some y => tokenizeLoop sorted fuel (elements ++ [y]) (List.drop y.length s)

/-- `string_to_symbol_list` (fststr.py lines 58-80). -/
def string_to_symbol_list (s : List Char) (symbols : List Sym) : TokResult :=
  tokenizeLoop (sortSymbols symbols) s.length [] s

/-- The positions the tokenizer traverses: one greedy step drops the matched symbol
from the head of the remaining input. -/
def tokStep (sorted : List Sym) (s₁ s₂ : List Char) : Prop :=
  ∃ y, firstMatch sorted s₁ = some y ∧ s₂ = List.drop y.length s₁

/-- `ReachesTok sorted s r`: during tokenization of `s` the remaining input `r` is
reached (zero or more greedy steps). -/
def ReachesTok (sorted : List Sym) : List Char → List Char → Prop :=
  Relation.ReflTransGen (tokStep sorted)

/-! ### The automaton model -/

/-- One weighted arc of a pywrapfst automaton (the weight, which is 0.0 on every arc
this module creates, is not modelled). -/
structure Arc : Type where
  ilabel : Nat
  olabel : Nat
  nextstate : Nat
deriving DecidableEq

/-- A pywrapfst automaton together with its input symbol table.  The code of a symbol
is its index in `isymbols`. -/
structure Fst : Type where
  start : Nat
  states : List (List Arc)
  isymbols : List Sym
deriving DecidableEq

/-- The outgoing arcs of state `q` (`automaton.arcs(q)`); a state id out of range has
no outgoing arcs. -/
def Fst.arcsOf (m : Fst) (q : Nat) : List Arc := m.states.getD q []

/-- Replace the arc list of state `q` (how `automaton.add_arc` appends are modelled). -/
def Fst.setArcs (m : Fst) (q : Nat) (l : List Arc) : Fst :=
  { m with states := m.states.set q l }

/-- Total number of arcs of the automaton. -/
def totalArcs (m : Fst) : Nat := (m.states.map List.length).sum

/-- One transition step of the automaton graph: some arc of `p` leads to `q`. -/
def stepRel (m : Fst) (p q : Nat) : Prop := ∃ a, a ∈ m.arcsOf p ∧ a.nextstate = q

/-- `ReachF m p q`: state `q` is reachable from state `p`. -/
def ReachF (m : Fst) : Nat → Nat → Prop := Relation.ReflTransGen (stepRel m)

/-- `Reach m q`: state `q` is reachable from the start state. -/
def Reach (m : Fst) (q : Nat) : Prop := ReachF m m.start q

/-! ### Symbol tables (`symbols_table_from_alphabet`, fststr.py lines 43-56) -/

/-- The reserved epsilon symbol. -/
def epsilonSym : Sym := chars "<epsilon>"

/-- The reserved wildcard symbol. -/
def otherSym : Sym := chars "<other>"

/-- `symbols_table_from_alphabet` (fststr.py lines 43-56): `<epsilon>` gets code 0, the
i-th alphabet symbol gets code i+1.  In the index model this is just consing. -/
def symbols_table_from_alphabet (alphabet : List Sym) : List Sym :=
  epsilonSym :: alphabet

/-- Auxiliary scan for `findCode`. -/
def findCodeFrom (s : Sym) : Nat → List Sym → Option Nat
  | _, [] => none
  | i, t :: ts => if t = s then some i else findCodeFrom s (i + 1) ts

/-- The code of symbol `s` in the table (the lookup behind `symb_map[...]` in
fststr.py lines 126-128; tables produced by `symbols_table_from_alphabet` from a
duplicate-free alphabet carry each symbol string once, so first-occurrence lookup
agrees with the python dict). -/
def findCode (tab : List Sym) (s : Sym) : Option Nat := findCodeFrom s 0 tab

/-- The symbol string of code `k` (`symb_tab.find(k)`, fststr.py line 206). -/
def findSym (tab : List Sym) (k : Nat) : Sym := tab.getD k []

/-! ### Linear-chain builder: `linear_fst` (fststr.py lines 86-108) -/

/-- Codes of the elements in the table; `none` when some element is absent (the
pywrapfst compiler fails on a symbol missing from its table). -/
def elementCodes (tab : List Sym) : List Sym → Option (List Nat)
  | [] => some []
  | e :: es =>
    match findCode tab e, elementCodes tab es with
    | some c, some cs => some (c :: cs)
    | _, _ => none

/-- The transition table printed to the compiler: for elements of codes `cs` starting
at state `i`, state `i` has a single arc to state `i+1` whose input and output labels
are both the code (acceptor), and the last state has no arcs. -/
def chainStates : Nat → List Nat → List (List Arc)
  | _, [] => [[]]
  | i, c :: cs => [⟨c, c, i + 1⟩] :: chainStates (i + 1) cs

/-- `linear_fst` (fststr.py lines 86-108).  On an empty element list the python code
raises `UnboundLocalError`: after the `for i, el in enumerate(elements)` loop the line
`print(str(i+1), file=compiler)` reads the loop variable `i`, which was never bound. -/
def linear_fst (elements : List Sym) (tab : List Sym) : Except String Fst :=
  if elements = [] then .error "UnboundLocalError"
  else
    match elementCodes tab elements with
    | none => .error "CompileError"
    | some codes => .ok { start := 0, states := chainStates 0 codes, isymbols := tab }

/-! ### Wildcard expander: `expand_other_symbols` (fststr.py lines 114-153) -/

/-- Whether a symbol is special, i.e. wrapped in angle brackets: `symb[0] == '<' and
symb[-1] == '>'` (fststr.py line 129).  (The python expression would raise on an empty
symbol string; tables are assumed to carry no empty symbol.) -/
def isSpecial (s : Sym) : Bool :=
  match s.head?, s.getLast? with
  | some '<', some '>' => s.length ≥ 1
  | _, _ => false

/-- `keys = {n for (n, _) in symbols} - special` (fststr.py line 130): every code of
the table whose symbol is not special.  (A python set of small ints iterates in
ascending order; only the set matters below.) -/
def ordinaryCodes (tab : List Sym) : List Nat :=
  (List.range tab.length).filter (fun n => ¬ (isSpecial (tab.getD n []) = true))

/-- The `arcs` dict of fststr.py lines 137-142 maps each input label to the `olabel`
and `nextstate` of the LAST arc carrying it; `arcs[other]` is therefore the last arc
with input label `other`. -/
def lastOther (other : Nat) (l : List Arc) : Option Arc :=
  (l.filter (fun a => a.ilabel = other)).getLast?

/-- The arcs synthesized at one state (fststr.py lines 146-151): for every ordinary
code not among the input labels of the state, one arc to the target of the other-arc,
with output label copied from the other-arc unless that output label is itself the
other code, in which case the new code is used (identity). -/
def mkNewArcs (other : Nat) (keys : List Nat) (arcList : List Arc) (o : Arc) : List Arc :=
  (keys.filter (fun k => k ∉ arcList.map Arc.ilabel)).map
    (fun k => ⟨k, if o.olabel = other then k else o.olabel, o.nextstate⟩)

/-- The full effect of one visit on the arc list of the visited state: unchanged when
no other-arc leaves it, otherwise the synthesized arcs are appended (`add_arc`
appends). -/
def processArcs (other : Nat) (keys : List Nat) (l : List Arc) : List Arc :=
  match lastOther other l with
  | none => l
  | some o => l ++ mkNewArcs other keys l o

/-- The explicit-stack depth-first traversal `dfs` of fststr.py lines 131-151.
`stack.pop()` pops the last element and `stack.extend(succs)` appends, so the model
keeps the stack head-first and prepends the reversed successor list.  The successors
are collected from the arcs of the state BEFORE the synthesized arcs are added (just
as in the python code, where `stack.extend` at line 143 precedes `add_arc` at line
149), and a state already in `visited` is skipped.  One unit of fuel is spent per
loop iteration; the wrapper passes `totalArcs m + 2` fuel, which suffices because each
state is expanded at most once and every push stems from an arc of a freshly visited
state. -/
def dfsLoop (other : Nat) (keys : List Nat) : Nat → List Nat → List Nat → Fst → Except String Fst
  | 0 => fun _ stack m =>
    match stack with
    | [] => .ok m
    | _ :: _ => .error "fuel"
  | fuel + 1 => fun visited stack m =>
    match stack with
    | [] => .ok m
    | state :: rest =>
      if state ∈ visited then dfsLoop other keys fuel visited rest m
      else
        let arcList := m.arcsOf state
        let m' :=
          match lastOther other arcList with
          | none => m
          | some o => m.setArcs state (arcList ++ mkNewArcs other keys arcList o)
        dfsLoop other keys fuel (state :: visited)
          ((arcList.map Arc.nextstate).reverse ++ rest) m'

/-- `expand_other_symbols` (fststr.py lines 114-153).  The lookups
`symb_map['<other>']` and `symb_map['<epsilon>']` (lines 127-128) raise `KeyError`
when the symbol is absent from the input symbol table, BEFORE any traversal or
mutation; afterwards the traversal from the start state expands every visited state
that has an other-arc.  The python function mutates in place and returns `None`; the
model returns the mutated automaton. -/
def expand_other_symbols (m : Fst) : Except String Fst :=
  match findCode m.isymbols otherSym with
  | none => .error "KeyError"
  | some other =>
    match findCode m.isymbols epsilonSym with
    | none => .error "KeyError"
    | some _ =>
      dfsLoop other (ordinaryCodes m.isymbols) (totalArcs m + 2) [] [m.start] m

/-! ### Reachability closure and the engine cyclicity test -/

/-- Every state id that can ever enter the traversal: the start state and the target
of every arc. -/
def univFinset (m : Fst) : Finset Nat :=
  (m.start :: (m.states.flatten.map Arc.nextstate)).toFinset

/-- Successor state ids of one state. -/
def succsOf (m : Fst) (q : Nat) : List Nat := (m.arcsOf q).map Arc.nextstate

/-- One round of reachability closure: a set together with all successors of its
members. -/
def stepF (m : Fst) (S : Finset Nat) : Finset Nat :=
  S ∪ S.biUnion (fun q => (succsOf m q).toFinset)

/-- States reachable from the seed set: the closure stabilizes after at most
`(univFinset m).card` rounds. -/
def reachClosure (m : Fst) (S : Finset Nat) : Finset Nat :=
  (stepF m)^[(univFinset m).card] S

/-- Modelled from the spec: the engine primitive behind
`automaton.properties(fst.CYCLIC, True) == fst.CYCLIC` (fststr.py line 199) is part of
the external automaton engine (pywrapfst/OpenFST), whose sources are not in this
repository; spec section 6 specifies it as a cyclicity test over the reachable
subgraph.  `cyclicB` decides whether some state reachable from the start can reach
itself again through at least one arc. -/
def cyclicB (m : Fst) : Bool :=
  decide (((reachClosure m {m.start}).filter
    (fun q => q ∈ reachClosure m (succsOf m q).toFinset)) ≠ ∅)

/-! ### Path extractor: `all_strings_from_chain` (fststr.py lines 180-207) -/

/-- A traversal path: the `(state, output label)` pairs accumulated by `dfs`,
starting from `(start, 0)`. -/
abbrev Path : Type := List (Nat × Nat)

/-- The state at `path[-1]` (paths are nonempty in every call the extractor makes). -/
def pathTarget (path : Path) : Nat := (path.getLastD (0, 0)).1

/-- The `for arc in graph.arcs(target)` loop of fststr.py lines 191-195, threading the
accumulated path list through the recursive calls (`paths = dfs(graph, new_path,
paths)`); `rec` is the recursive entry at one fuel level lower. -/
def dfsArcsGo (rec : Path → List Path → Option (List Path)) (path : Path) :
    List Arc → List Path → Option (List Path)
  | [], paths => some paths
  | a :: rest, paths =>
    match rec (path ++ [(a.nextstate, a.olabel)]) paths with
    | none => none
    | some paths' => dfsArcsGo rec path rest paths'

/-- The recursive `dfs` of fststr.py lines 188-198: at a state with no outgoing arcs
the current path is appended to the accumulated list (`paths += [path]`, which extends
the list object in place); otherwise each arc extends the path.  Fuel bounds the
recursion depth; `none` models a run deeper than the fuel (the wrapper passes fuel
exceeding the longest path of any acyclic automaton, and the cyclic case is rejected
before `dfs` runs). -/
def dfsPaths (m : Fst) : Nat → Path → List Path → Option (List Path)
  | 0 => fun _ _ => none
  | fuel + 1 => fun path paths =>
    match m.arcsOf (pathTarget path) with
    | [] => some (paths ++ [path])
    | arcs => dfsArcsGo (dfsPaths m fuel) path arcs paths

/-- Recursion depth passed to `dfs`: one more than the number of distinct states that
can appear in a path. -/
def dfsFuel (m : Fst) : Nat := (univFinset m).card + 1

/-- `''.join([symb_tab.find(k) for (_, k) in path if k])` (fststr.py line 206): the
string of a path is the concatenation of the symbols of its non-zero (non-epsilon)
output labels. -/
def render (tab : List Sym) (path : Path) : Sym :=
  ((path.filter (fun p => p.2 ≠ 0)).map (fun p => findSym tab p.2)).flatten

/-- The `FstError` message of fststr.py line 200. -/
def cyclicMsg : String :=
  "FSA resulting from composition of FST and linear chain automaton has cycles. Cannot extract set of strings."

/-- `all_strings_from_chain` (fststr.py lines 180-207).  The nested `def dfs(graph,
path, paths=[])` statement is executed afresh on every invocation, so the default
accumulator of the top-level `dfs(automaton, [(start, 0)])` call is always a newly
created empty list (see the header).  On a cyclic automaton the `FstError` is raised
before `dfs` is entered, so no traversal happens and no string list is produced. -/
def all_strings_from_chain (m : Fst) : Except String (List Sym) :=
  if cyclicB m then .error cyclicMsg
  else
    match dfsPaths m (dfsFuel m) [(m.start, 0)] [] with
    | none => .error "RecursionError"
    | some paths => .ok (paths.map (render m.isymbols))

/-- Reference enumeration of complete paths, following the spec of the Path Extractor
(section 4.5): every extension of `path` obtained by walking arcs depth-first, in arc
order, until a state with no outgoing arcs is reached.  Same fuel convention as
`dfsPaths`. -/
def enumCompletePaths (m : Fst) : Nat → Path → List Path
  | 0 => fun _ => []
  | fuel + 1 => fun path =>
    match m.arcsOf (pathTarget path) with
    | [] => [path]
    | arcs =>
      (arcs.map (fun a => enumCompletePaths m fuel (path ++ [(a.nextstate, a.olabel)]))).flatten

/-- `Completes m path p`: extending `path` along arcs of `m` can end in `p`, whose
last state has no outgoing arcs — `p` is a complete traversal extending `path`. -/
inductive Completes (m : Fst) : Path → Path → Prop
  | done (path : Path) : m.arcsOf (pathTarget path) = [] → Completes m path path
  | step {path full : Path} {a : Arc} :
      a ∈ m.arcsOf (pathTarget path) →
      Completes m (path ++ [(a.nextstate, a.olabel)]) full →
      Completes m path full

/-! ### Concrete automatons used to instantiate the theorems below -/

/-- Table `{<epsilon>: 0, <other>: 1, a: 2, b: 3}`. -/
def tabW : List Sym := symbols_table_from_alphabet [otherSym, chars "a", chars "b"]

/-- A two-state automaton whose only arc is `<other>:<other>` from state 0 to state 1. -/
def fstW : Fst := { start := 0, states := [[⟨1, 1, 1⟩], []], isymbols := tabW }

/-- `fstW` after wildcard expansion: identity arcs `a:a` and `b:b` are synthesized. -/
def fstWExp : Fst :=
  { start := 0, states := [[⟨1, 1, 1⟩, ⟨2, 2, 1⟩, ⟨3, 3, 1⟩], []], isymbols := tabW }

/-- An automaton whose table lacks `<other>`, with an (unrelated) arc. -/
def fstNoOther : Fst :=
  { start := 0, states := [[⟨1, 1, 1⟩], []], isymbols := symbols_table_from_alphabet [chars "a"] }

/-- A one-state automaton with a self loop: a reachable cycle. -/
def fstLoop : Fst :=
  { start := 0, states := [[⟨1, 1, 0⟩]], isymbols := symbols_table_from_alphabet [chars "a"] }

/-- An acyclic two-state automaton emitting the single string `A`. -/
def fstA : Fst :=
  { start := 0, states := [[⟨1, 1, 1⟩], []], isymbols := symbols_table_from_alphabet [chars "A"] }

/-- An acyclic automaton with two branches from the start state: two complete paths,
emitting the strings `X` and `Y`. -/
def fstBr : Fst :=
  { start := 0, states := [[⟨1, 1, 1⟩, ⟨2, 2, 2⟩], [], []],
    isymbols := symbols_table_from_alphabet [chars "X", chars "Y"] }

/-! ## Theorems -/

/-! ### Tokenizer lemmas -/

theorem tokenizeLoop_nil {sorted : List Sym} {f : Nat} {acc : List Sym} :
    tokenizeLoop sorted f acc [] = .ok acc := by
  cases f <;> rfl

theorem tokenizeLoop_zero_cons {sorted : List Sym} {acc : List Sym} {c : Char}
    {cs : List Char} : tokenizeLoop sorted 0 acc (c :: cs) = .hang := rfl

theorem tokenizeLoop_succ_cons {sorted : List Sym} {f : Nat} {acc : List Sym} {c : Char}
    {cs : List Char} :
    tokenizeLoop sorted (f + 1) acc (c :: cs) =
      match firstMatch sorted (c :: cs) with
      | none => .illegal (c :: cs)
      | some y => tokenizeLoop sorted f (acc ++ [y]) (List.drop y.length (c :: cs)) := rfl

theorem firstMatch_some {l : List Sym} {s : List Char} {y : Sym}
    (h : firstMatch l s = some y) : y ∈ l ∧ y = List.take y.length s := by
  induction l with
  | nil => simp [firstMatch] at h
  | cons a tl ih =>
    by_cases hc : a = List.take a.length s
    · rw [firstMatch, if_pos hc] at h
      injection h with h
      subst h
      exact ⟨List.mem_cons_self _ _, hc⟩
    · rw [firstMatch, if_neg hc] at h
      rcases ih h with ⟨hm, he⟩
      exact ⟨List.mem_cons_of_mem a hm, he⟩

theorem firstMatch_none_iff {l : List Sym} {s : List Char} :
    firstMatch l s = none ↔ ∀ z ∈ l, ¬ z = List.take z.length s := by
  induction l with
  | nil => simp [firstMatch]
  | cons a tl ih =>
    by_cases hc : a = List.take a.length s
    · rw [firstMatch, if_pos hc]
      constructor
      · intro h
        cases h
      · intro hall
        exact absurd hc (hall a (List.mem_cons_self _ _))
    · rw [firstMatch, if_neg hc, ih]
      constructor
      · intro hall z hz
        rcases List.mem_cons.mp hz with rfl | hz
        · exact hc
        · exact hall z hz
      · intro hall z hz
        exact hall z (List.mem_cons_of_mem a hz)

theorem sortSymbols_sorted (symbols : List Sym) :
    List.Sorted lenGE (sortSymbols symbols) :=
  List.sorted_insertionSort lenGE symbols

theorem mem_sortSymbols {symbols : List Sym} {z : Sym} :
    z ∈ sortSymbols symbols ↔ z ∈ symbols :=
  (List.perm_insertionSort lenGE symbols).mem_iff

theorem firstMatch_longest {l : List Sym} {s : List Char} {y : Sym}
    (hs : List.Sorted lenGE l) (h : firstMatch l s = some y) :
    ∀ z ∈ l, z = List.take z.length s → z.length ≤ y.length := by
  induction l with
  | nil => simp [firstMatch] at h
  | cons a tl ih =>
    rcases List.sorted_cons.mp hs with ⟨ha, htl⟩
    by_cases hc : a = List.take a.length s
    · rw [firstMatch, if_pos hc] at h
      injection h with h
      subst h
      intro z hz hmatch
      rcases List.mem_cons.mp hz with rfl | hz
      · exact Nat.le_refl _
      · exact ha z hz
    · rw [firstMatch, if_neg hc] at h
      intro z hz hmatch
      rcases List.mem_cons.mp hz with rfl | hz
      · exact absurd hmatch hc
      · exact ih htl h z hz hmatch

theorem tokenizeLoop_ok {sorted : List Sym} :
    ∀ {f : Nat} {acc : List Sym} {s : List Char} {es : List Sym},
      tokenizeLoop sorted f acc s = .ok es →
      ∃ taken, es = acc ++ taken ∧ taken.flatten = s ∧ ∀ e ∈ taken, e ∈ sorted := by
  intro f
  induction f with
  | zero =>
    intro acc s es h
    cases s with
    | nil =>
      rw [tokenizeLoop_nil] at h
      cases h
      exact ⟨[], by simp⟩
    | cons c cs => rw [tokenizeLoop_zero_cons] at h; cases h
  | succ f ih =>
    intro acc s es h
    cases s with
    | nil =>
      rw [tokenizeLoop_nil] at h
      cases h
      exact ⟨[], by simp⟩
    | cons c cs =>
      rw [tokenizeLoop_succ_cons] at h
      cases hfm : firstMatch sorted (c :: cs) with
      | none => rw [hfm] at h; cases h
      | some y =>
        rw [hfm] at h
        rcases ih h with ⟨taken, rfl, hflat, hmem⟩
        refine ⟨y :: taken, by simp, ?_, ?_⟩
        · rcases firstMatch_some hfm with ⟨_, htake⟩
          calc (y :: taken).flatten = y ++ taken.flatten := by simp
            _ = y ++ List.drop y.length (c :: cs) := by rw [hflat]
            _ = List.take y.length (c :: cs) ++ List.drop y.length (c :: cs) := by
                rw [← htake]
            _ = c :: cs := List.take_append_drop _ _
        · intro e he
          rcases List.mem_cons.mp he with rfl | he
          · exact (firstMatch_some hfm).1
          · exact hmem e he

theorem tokenizeLoop_illegal {sorted : List Sym} :
    ∀ {f : Nat} {acc : List Sym} {s r : List Char},
      tokenizeLoop sorted f acc s = .illegal r →
      ReachesTok sorted s r ∧ firstMatch sorted r = none ∧ r ≠ [] := by
  intro f
  induction f with
  | zero =>
    intro acc s r h
    cases s with
    | nil => rw [tokenizeLoop_nil] at h; cases h
    | cons c cs => rw [tokenizeLoop_zero_cons] at h; cases h
  | succ f ih =>
    intro acc s r h
    cases s with
    | nil => rw [tokenizeLoop_nil] at h; cases h
    | cons c cs =>
      rw [tokenizeLoop_succ_cons] at h
      cases hfm : firstMatch sorted (c :: cs) with
      | none =>
        rw [hfm] at h
        cases h
        exact ⟨Relation.ReflTransGen.refl, hfm, by simp⟩
      | some y =>
        rw [hfm] at h
        rcases ih h with ⟨hr, hnone, hne⟩
        exact ⟨Relation.ReflTransGen.head ⟨y, hfm, rfl⟩ hr, hnone, hne⟩

theorem reachesTok_of_match_empty {sorted : List Sym} {s r : List Char}
    (h : ReachesTok sorted s r) : firstMatch sorted s = some [] → r = s := by
  induction h using Relation.ReflTransGen.head_induction_on with
  | refl => intro _; rfl
  | @head a c h' hder ih =>
    intro hs
    rcases h' with ⟨y, hy, hc⟩
    rw [hs] at hy
    injection hy with hy
    subst hy
    simp only [List.length_nil, List.drop_zero] at hc
    subst hc
    exact ih hs

theorem tokenizeLoop_reaches_illegal {sorted : List Sym} {s r : List Char}
    (h : ReachesTok sorted s r) (hnone : firstMatch sorted r = none) (hne : r ≠ []) :
    ∀ acc (f : Nat), s.length ≤ f → tokenizeLoop sorted f acc s = .illegal r := by
  induction h using Relation.ReflTransGen.head_induction_on with
  | refl =>
    intro acc f hf
    cases r with
    | nil => exact absurd rfl hne
    | cons c cs =>
      cases f with
      | zero => simp at hf
      | succ f => rw [tokenizeLoop_succ_cons, hnone]
  | @head a c h' hder ih =>
    intro acc f hf
    rcases h' with ⟨y, hy, hc⟩
    by_cases hy0 : y = []
    · subst hy0
      have hra := reachesTok_of_match_empty (Relation.ReflTransGen.head ⟨[], hy, hc⟩ hder) hy
      rw [hra] at hnone
      rw [hnone] at hy
      exact Option.noConfusion hy
    · cases ha : a with
      | nil =>
        subst ha
        rcases firstMatch_some hy with ⟨_, htake⟩
        simp only [List.take_nil] at htake
        exact absurd htake hy0
      | cons d ds =>
        subst ha
        cases f with
        | zero => simp at hf
        | succ f =>
          rw [tokenizeLoop_succ_cons, hy]
          show tokenizeLoop sorted f (acc ++ [y]) (List.drop y.length (d :: ds)) =
            TokResult.illegal r
          rw [← hc]
          apply ih
          have h1 : 1 ≤ y.length := Nat.one_le_iff_ne_zero.mpr (by
            intro h0
            exact hy0 (List.eq_nil_of_length_eq_zero h0))
          have hlen : c.length = (d :: ds).length - y.length := by
            rw [hc, List.length_drop]
          calc c.length = (d :: ds).length - y.length := hlen
            _ ≤ (d :: ds).length - 1 := Nat.sub_le_sub_left h1 _
            _ ≤ f := Nat.sub_le_of_le_add (by simpa [Nat.add_comm] using hf)

/-- C1 counterexample: the spec claims tokenization succeeds on EVERY string that is a
concatenation of alphabet symbols, but for the alphabet containing the symbols ab, bb
and a, the string abb equals a ++ bb yet greedy longest-match consumes ab first and
then fails on the remaining b with the IllegalSymbol error. -/
theorem tokenize_total_cex :
    chars "a" ++ chars "bb" = chars "abb" ∧
    chars "a" ∈ [chars "ab", chars "bb", chars "a"] ∧
    chars "bb" ∈ [chars "ab", chars "bb", chars "a"] ∧
    string_to_symbol_list (chars "abb") [chars "ab", chars "bb", chars "a"] =
      .illegal (chars "b") := by
  refine ⟨rfl, by decide, by decide, by decide⟩

/-- C1, amended: tokenization is lossless and alphabet-sound whenever it succeeds:
if `string_to_symbol_list` returns a symbol sequence, concatenating it yields the
input string again, and every returned element is an alphabet symbol.  (Totality on
all concatenations of alphabet symbols fails, see the counterexample.) -/
theorem tokenize_lossless_of_ok (symbols : List Sym) (s : List Char) (es : List Sym)
    (h : string_to_symbol_list s symbols = .ok es) :
    es.flatten = s ∧ ∀ e ∈ es, e ∈ symbols := by
  rcases tokenizeLoop_ok h with ⟨taken, rfl, hflat, hmem⟩
  exact ⟨hflat, fun e he => mem_sortSymbols.mp (hmem e he)⟩

theorem tokenize_lossless_of_ok_witness :
    List.flatten [chars "ab"] = chars "ab" ∧ ∀ e ∈ [chars "ab"], e ∈ [chars "a", chars "ab"] :=
  tokenize_lossless_of_ok [chars "a", chars "ab"] (chars "ab") [chars "ab"] (by decide)

/-- C7: tokenization is longest-match.  Each step of `string_to_symbol_list` consumes
`firstMatch` applied to the length-sorted symbol list; whenever that step selects a
symbol, the symbol is an alphabet symbol, a literal head segment of the remaining
input, and no alphabet symbol that is a literal head segment of the remaining input
is longer.  In particular, on alphabet a, ab and input ab the result is the single
symbol ab. -/
theorem tokenize_longest_match (symbols : List Sym) (s y : List Char)
    (h : firstMatch (sortSymbols symbols) s = some y) :
    (y ∈ symbols ∧ y = List.take y.length s ∧
      ∀ z ∈ symbols, z = List.take z.length s → z.length ≤ y.length) ∧
    string_to_symbol_list (chars "ab") [chars "a", chars "ab"] = .ok [chars "ab"] := by
  rcases firstMatch_some h with ⟨hm, ht⟩
  refine ⟨⟨mem_sortSymbols.mp hm, ht, ?_⟩, by decide⟩
  intro z hz hmatch
  exact firstMatch_longest (sortSymbols_sorted symbols) h z (mem_sortSymbols.mpr hz) hmatch

theorem tokenize_longest_match_witness :
    ((chars "ab" ∈ [chars "a", chars "ab"] ∧
        chars "ab" = List.take (chars "ab").length (chars "ab") ∧
        ∀ z ∈ [chars "a", chars "ab"],
          z = List.take z.length (chars "ab") → z.length ≤ (chars "ab").length) ∧
      string_to_symbol_list (chars "ab") [chars "a", chars "ab"] = .ok [chars "ab"]) :=
  tokenize_longest_match [chars "a", chars "ab"] (chars "ab") (chars "ab") (by decide)

/-- C8: `string_to_symbol_list` fails with the IllegalSymbol error carrying remaining
substring `r` exactly when the greedy tokenization of `s` reaches the nonempty
position `r` and no alphabet symbol is a literal head segment of `r`; it fails in no
other case. -/
theorem tokenize_illegal_iff (symbols : List Sym) (s r : List Char) :
    string_to_symbol_list s symbols = .illegal r ↔
      (ReachesTok (sortSymbols symbols) s r ∧ r ≠ [] ∧
        ∀ z ∈ symbols, ¬ z = List.take z.length r) := by
  constructor
  · intro h
    rcases tokenizeLoop_illegal h with ⟨hr, hnone, hne⟩
    refine ⟨hr, hne, ?_⟩
    intro z hz
    exact firstMatch_none_iff.mp hnone z (mem_sortSymbols.mpr hz)
  · rintro ⟨hr, hne, hall⟩
    have hnone : firstMatch (sortSymbols symbols) r = none := by
      rw [firstMatch_none_iff]
      intro z hz
      exact hall z (mem_sortSymbols.mp hz)
    exact tokenizeLoop_reaches_illegal hr hnone hne [] s.length (Nat.le_refl _)

/-! ### Linear-chain builder lemmas -/

theorem chainStates_length : ∀ (i : Nat) (cs : List Nat),
    (chainStates i cs).length = cs.length + 1 := by
  intro i cs
  induction cs generalizing i with
  | nil => rfl
  | cons c cs ih => simp [chainStates, ih]

theorem chainStates_getD_lt : ∀ (cs : List Nat) (i j : Nat), j < cs.length →
    (chainStates i cs).getD j [] = [⟨cs.getD j 0, cs.getD j 0, i + j + 1⟩] := by
  intro cs
  induction cs with
  | nil => intro i j hj; simp at hj
  | cons c cs ih =>
    intro i j hj
    cases j with
    | zero => simp [chainStates]
    | succ j =>
      rw [chainStates, List.getD_cons_succ, List.getD_cons_succ,
        ih (i + 1) j (by simpa using hj)]
      have : i + 1 + j + 1 = i + (j + 1) + 1 := by omega
      rw [this]

theorem chainStates_getD_last : ∀ (cs : List Nat) (i : Nat),
    (chainStates i cs).getD cs.length [] = [] := by
  intro cs
  induction cs with
  | nil => intro i; rfl
  | cons c cs ih => intro i; simpa [chainStates] using ih (i + 1)

theorem chainStates_arcs_sum : ∀ (i : Nat) (cs : List Nat),
    ((chainStates i cs).map List.length).sum = cs.length := by
  intro i cs
  induction cs generalizing i with
  | nil => rfl
  | cons c cs ih => simp [chainStates, ih, Nat.add_comm]

theorem elementCodes_length {tab : List Sym} :
    ∀ {es : List Sym} {cs : List Nat}, elementCodes tab es = some cs → cs.length = es.length := by
  intro es
  induction es with
  | nil => intro cs h; cases h; rfl
  | cons e es ih =>
    intro cs h
    rw [elementCodes] at h
    cases hf : findCode tab e with
    | none => rw [hf] at h; cases h
    | some c =>
      rw [hf] at h
      cases he : elementCodes tab es with
      | none => rw [he] at h; cases h
      | some cs' =>
        rw [he] at h
        cases h
        simp [ih he]

/-- C4 counterexample: on the empty symbol sequence (N = 0) the python `linear_fst`
does not build a one-state automaton; it raises `UnboundLocalError`, because the line
`print(str(i+1), file=compiler)` reads the `enumerate` loop variable `i`, which was
never bound when `elements` is empty. -/
theorem linear_fst_empty_cex :
    linear_fst [] (symbols_table_from_alphabet [chars "a", chars "b"]) =
        .error "UnboundLocalError" ∧
    (linear_fst [] (symbols_table_from_alphabet [chars "a", chars "b"])).isOk = false :=
  ⟨rfl, rfl⟩

/-- C4, amended to nonempty sequences (and sequences whose symbols resolve in the
table, since the external compiler fails on an unknown symbol): for every NONEMPTY
symbol sequence of length N whose symbols have codes in the table, `linear_fst`
produces an automaton with exactly N+1 states and N arcs, where state i has the single
arc to state i+1 whose input and output labels are both the code of the i-th symbol,
state 0 is the start state, and state N has no outgoing arcs. -/
theorem linear_fst_builds_chain (elements tab : List Sym) (codes : List Nat)
    (hne : elements ≠ []) (hcodes : elementCodes tab elements = some codes) :
    ∃ F : Fst, linear_fst elements tab = .ok F ∧
      F.start = 0 ∧
      F.states.length = elements.length + 1 ∧
      totalArcs F = elements.length ∧
      codes.length = elements.length ∧
      (∀ i, i < elements.length →
        F.arcsOf i = [⟨codes.getD i 0, codes.getD i 0, i + 1⟩]) ∧
      F.arcsOf elements.length = [] := by
  have hlen : codes.length = elements.length := elementCodes_length hcodes
  refine ⟨⟨0, chainStates 0 codes, tab⟩, ?_, rfl, ?_, ?_, hlen, ?_, ?_⟩
  · rw [linear_fst, if_neg hne, hcodes]
  · show (chainStates 0 codes).length = elements.length + 1
    rw [chainStates_length, hlen]
  · show ((chainStates 0 codes).map List.length).sum = elements.length
    rw [chainStates_arcs_sum, hlen]
  · intro i hi
    show (chainStates 0 codes).getD i [] = _
    rw [chainStates_getD_lt codes 0 i (by rw [hlen]; exact hi)]
    simp
  · show (chainStates 0 codes).getD elements.length [] = []
    rw [← hlen, chainStates_getD_last]

theorem linear_fst_builds_chain_witness :
    ∃ F : Fst, linear_fst [chars "a", chars "b"] tabW = .ok F ∧
      F.start = 0 ∧
      F.states.length = [chars "a", chars "b"].length + 1 ∧
      totalArcs F = [chars "a", chars "b"].length ∧
      ([2, 3] : List Nat).length = [chars "a", chars "b"].length ∧
      (∀ i, i < [chars "a", chars "b"].length →
        F.arcsOf i = [⟨List.getD [2, 3] i 0, List.getD [2, 3] i 0, i + 1⟩]) ∧
      F.arcsOf [chars "a", chars "b"].length = [] :=
  linear_fst_builds_chain [chars "a", chars "b"] tabW [2, 3] (by decide) (by decide)

/-! ### Automaton helper lemmas -/

theorem arcsOf_ne_nil_lt {m : Fst} {q : Nat} (h : m.arcsOf q ≠ []) :
    q < m.states.length := by
  by_contra hq
  push_neg at hq
  exact h (by rw [Fst.arcsOf, List.getD_eq_default _ _ hq])

theorem arcsOf_setArcs_self {m : Fst} {q : Nat} {l : List Arc}
    (hq : q < m.states.length) : (m.setArcs q l).arcsOf q = l := by
  show (m.states.set q l).getD q [] = l
  rw [List.getD_eq_getElem?_getD, List.getElem?_set_self hq]
  rfl

theorem arcsOf_setArcs_ne {m : Fst} {q p : Nat} {l : List Arc} (h : q ≠ p) :
    (m.setArcs q l).arcsOf p = m.arcsOf p := by
  show (m.states.set q l).getD p [] = m.states.getD p []
  rw [List.getD_eq_getElem?_getD, List.getElem?_set_ne h, ← List.getD_eq_getElem?_getD]

theorem mem_flatten_of_mem_arcsOf {m : Fst} {q : Nat} {a : Arc}
    (h : a ∈ m.arcsOf q) : a ∈ m.states.flatten := by
  have hne : m.arcsOf q ≠ [] := fun h0 => by rw [h0] at h; cases h
  have hq : q < m.states.length := arcsOf_ne_nil_lt hne
  have harc : m.arcsOf q = m.states[q] := by
    rw [Fst.arcsOf, List.getD_eq_getElem]
  rw [harc] at h
  exact List.mem_flatten.mpr ⟨m.states[q], List.getElem_mem hq, h⟩

/-! ### Wildcard-expander lemmas -/

theorem dfsLoop_nil_stack {other : Nat} {keys : List Nat} {f : Nat} {visited : List Nat}
    {m : Fst} : dfsLoop other keys f visited [] m = .ok m := by
  cases f <;> rfl

theorem dfsLoop_zero_cons {other : Nat} {keys : List Nat} {visited : List Nat}
    {u : Nat} {rest : List Nat} {m : Fst} :
    dfsLoop other keys 0 visited (u :: rest) m = .error "fuel" := rfl

theorem dfsLoop_succ_skip {other : Nat} {keys : List Nat} {f : Nat} {visited : List Nat}
    {u : Nat} {rest : List Nat} {m : Fst} (hu : u ∈ visited) :
    dfsLoop other keys (f + 1) visited (u :: rest) m =
      dfsLoop other keys f visited rest m := by
  show (if u ∈ visited then _ else _) = _
  rw [if_pos hu]

theorem dfsLoop_succ_none {other : Nat} {keys : List Nat} {f : Nat} {visited : List Nat}
    {u : Nat} {rest : List Nat} {m : Fst} (hu : u ∉ visited)
    (hlo : lastOther other (m.arcsOf u) = none) :
    dfsLoop other keys (f + 1) visited (u :: rest) m =
      dfsLoop other keys f (u :: visited)
        (((m.arcsOf u).map Arc.nextstate).reverse ++ rest) m := by
  show (if u ∈ visited then _ else _) = _
  rw [if_neg hu]
  show dfsLoop other keys f (u :: visited)
      (((m.arcsOf u).map Arc.nextstate).reverse ++ rest)
      (match lastOther other (m.arcsOf u) with
        | none => m
        | some o => m.setArcs u (m.arcsOf u ++ mkNewArcs other keys (m.arcsOf u) o)) = _
  rw [hlo]

theorem dfsLoop_succ_some {other : Nat} {keys : List Nat} {f : Nat} {visited : List Nat}
    {u : Nat} {rest : List Nat} {m : Fst} {o : Arc} (hu : u ∉ visited)
    (hlo : lastOther other (m.arcsOf u) = some o) :
    dfsLoop other keys (f + 1) visited (u :: rest) m =
      dfsLoop other keys f (u :: visited)
        (((m.arcsOf u).map Arc.nextstate).reverse ++ rest)
        (m.setArcs u (m.arcsOf u ++ mkNewArcs other keys (m.arcsOf u) o)) := by
  show (if u ∈ visited then _ else _) = _
  rw [if_neg hu]
  show dfsLoop other keys f (u :: visited)
      (((m.arcsOf u).map Arc.nextstate).reverse ++ rest)
      (match lastOther other (m.arcsOf u) with
        | none => m
        | some o => m.setArcs u (m.arcsOf u ++ mkNewArcs other keys (m.arcsOf u) o)) = _
  rw [hlo]

theorem lastOther_ne_nil {other : Nat} {l : List Arc} {o : Arc}
    (h : lastOther other l = some o) : l ≠ [] := by
  intro hl
  subst hl
  simp [lastOther] at h

theorem processArcs_none {other : Nat} {keys : List Nat} {l : List Arc}
    (h : lastOther other l = none) : processArcs other keys l = l := by
  unfold processArcs
  rw [h]

theorem processArcs_some {other : Nat} {keys : List Nat} {l : List Arc} {o : Arc}
    (h : lastOther other l = some o) :
    processArcs other keys l = l ++ mkNewArcs other keys l o := by
  unfold processArcs
  rw [h]

theorem mem_mkNewArcs {other : Nat} {keys : List Nat} {l : List Arc} {o a : Arc}
    (h : a ∈ mkNewArcs other keys l o) :
    a.nextstate = o.nextstate ∧
    a.olabel = (if o.olabel = other then a.ilabel else o.olabel) ∧
    a.ilabel ∈ keys ∧ a.ilabel ∉ l.map Arc.ilabel := by
  rcases List.mem_map.mp h with ⟨k, hk, rfl⟩
  rcases List.mem_filter.mp hk with ⟨hk1, hk2⟩
  exact ⟨rfl, rfl, hk1, of_decide_eq_true hk2⟩

theorem mkNewArcs_covers {other : Nat} {keys : List Nat} {l : List Arc} {o : Arc}
    {k : Nat} (hk : k ∈ keys) (hkn : k ∉ l.map Arc.ilabel) :
    (⟨k, if o.olabel = other then k else o.olabel, o.nextstate⟩ : Arc) ∈
      mkNewArcs other keys l o :=
  List.mem_map.mpr ⟨k, List.mem_filter.mpr ⟨hk, decide_eq_true hkn⟩, rfl⟩

theorem reach_stays_in_closed {m0 : Fst} {V : List Nat}
    (hcl : ∀ v ∈ V, ∀ a ∈ m0.arcsOf v, a.nextstate ∈ V) {q₀ q : Nat}
    (hq0 : q₀ ∈ V) (h : ReachF m0 q₀ q) : q ∈ V := by
  induction h with
  | refl => exact hq0
  | tail h1 h2 ih =>
    rcases h2 with ⟨a, ha, rfl⟩
    exact hcl _ ih a ha

/-- The central invariant of the traversal of `expand_other_symbols`: when the
depth-first loop finishes, the arc list of every state reachable (in the original
automaton) from a state of the stack, or already visited, equals the per-state
expansion of its original arc list. -/
theorem dfsLoop_expands (other : Nat) (keys : List Nat) (m0 : Fst) :
    ∀ (fuel : Nat) (visited stack : List Nat) (m m' : Fst),
      dfsLoop other keys fuel visited stack m = .ok m' →
      (∀ q, q ∉ visited → m.arcsOf q = m0.arcsOf q) →
      (∀ q, q ∈ visited → m.arcsOf q = processArcs other keys (m0.arcsOf q)) →
      (∀ q, q ∈ visited → ∀ a ∈ m0.arcsOf q, a.nextstate ∈ visited ∨ a.nextstate ∈ stack) →
      ∀ q₀ q, (q₀ ∈ visited ∨ q₀ ∈ stack) → ReachF m0 q₀ q →
        m'.arcsOf q = processArcs other keys (m0.arcsOf q) := by
  intro fuel
  induction fuel with
  | zero =>
    intro visited stack m m' hok hunvis hvis hclosed q₀ q hq₀ hreach
    cases stack with
    | nil =>
      rw [dfsLoop_nil_stack] at hok
      cases hok
      have hq0v : q₀ ∈ visited := hq₀.resolve_right (List.not_mem_nil _)
      have hcl : ∀ v ∈ visited, ∀ a ∈ m0.arcsOf v, a.nextstate ∈ visited :=
        fun v hv a ha => (hclosed v hv a ha).resolve_right (List.not_mem_nil _)
      exact hvis q (reach_stays_in_closed hcl hq0v hreach)
    | cons u rest =>
      rw [dfsLoop_zero_cons] at hok
      exact Except.noConfusion hok
  | succ fuel ih =>
    intro visited stack m m' hok hunvis hvis hclosed q₀ q hq₀ hreach
    cases stack with
    | nil =>
      rw [dfsLoop_nil_stack] at hok
      cases hok
      have hq0v : q₀ ∈ visited := hq₀.resolve_right (List.not_mem_nil _)
      have hcl : ∀ v ∈ visited, ∀ a ∈ m0.arcsOf v, a.nextstate ∈ visited :=
        fun v hv a ha => (hclosed v hv a ha).resolve_right (List.not_mem_nil _)
      exact hvis q (reach_stays_in_closed hcl hq0v hreach)
    | cons u rest =>
      by_cases hu : u ∈ visited
      · rw [dfsLoop_succ_skip hu] at hok
        refine ih visited rest m m' hok hunvis hvis ?_ q₀ q ?_ hreach
        · intro v hv a ha
          rcases hclosed v hv a ha with h | h
          · exact Or.inl h
          · rcases List.mem_cons.mp h with heq | h
            · exact Or.inl (heq ▸ hu)
            · exact Or.inr h
        · rcases hq₀ with h | h
          · exact Or.inl h
          · rcases List.mem_cons.mp h with heq | h
            · exact Or.inl (heq ▸ hu)
            · exact Or.inr h
      · have hmu : m.arcsOf u = m0.arcsOf u := hunvis u hu
        cases hlo : lastOther other (m.arcsOf u) with
        | none =>
          rw [dfsLoop_succ_none hu hlo] at hok
          refine ih (u :: visited) (((m.arcsOf u).map Arc.nextstate).reverse ++ rest)
            m m' hok ?_ ?_ ?_ q₀ q ?_ hreach
          · intro p hp
            exact hunvis p (fun hv => hp (List.mem_cons_of_mem _ hv))
          · intro p hp
            rcases List.mem_cons.mp hp with rfl | hp
            · rw [hmu] at hlo
              rw [hmu, processArcs_none hlo]
            · exact hvis p hp
          · intro v hv a ha
            rcases List.mem_cons.mp hv with rfl | hv
            · refine Or.inr (List.mem_append_left _ ?_)
              rw [List.mem_reverse]
              exact List.mem_map.mpr ⟨a, by rw [hmu]; exact ha, rfl⟩
            · rcases hclosed v hv a ha with h | h
              · exact Or.inl (List.mem_cons_of_mem _ h)
              · rcases List.mem_cons.mp h with heq | h
                · exact Or.inl (heq ▸ List.mem_cons_self _ _)
                · exact Or.inr (List.mem_append_right _ h)
          · rcases hq₀ with h | h
            · exact Or.inl (List.mem_cons_of_mem _ h)
            · rcases List.mem_cons.mp h with heq | h
              · exact Or.inl (heq ▸ List.mem_cons_self _ _)
              · exact Or.inr (List.mem_append_right _ h)
        | some o =>
          rw [dfsLoop_succ_some hu hlo] at hok
          have hult : u < m.states.length := arcsOf_ne_nil_lt (lastOther_ne_nil hlo)
          have hm₁u : (m.setArcs u (m.arcsOf u ++ mkNewArcs other keys (m.arcsOf u) o)).arcsOf u
              = m.arcsOf u ++ mkNewArcs other keys (m.arcsOf u) o :=
            arcsOf_setArcs_self hult
          have hm₁ne : ∀ p, p ≠ u →
              (m.setArcs u (m.arcsOf u ++ mkNewArcs other keys (m.arcsOf u) o)).arcsOf p
                = m.arcsOf p :=
            fun p hp => arcsOf_setArcs_ne (fun h => hp h.symm)
          refine ih (u :: visited) (((m.arcsOf u).map Arc.nextstate).reverse ++ rest)
            _ m' hok ?_ ?_ ?_ q₀ q ?_ hreach
          · intro p hp
            have hpu : p ≠ u := fun h => hp (h ▸ List.mem_cons_self _ _)
            rw [hm₁ne p hpu]
            exact hunvis p (fun hv => hp (List.mem_cons_of_mem _ hv))
          · intro p hp
            rcases List.mem_cons.mp hp with rfl | hp
            · rw [hm₁u, hmu]
              rw [hmu] at hlo
              rw [processArcs_some hlo]
            · have hpu : p ≠ u := fun h => hu (h ▸ hp)
              rw [hm₁ne p hpu]
              exact hvis p hp
          · intro v hv a ha
            rcases List.mem_cons.mp hv with rfl | hv
            · refine Or.inr (List.mem_append_left _ ?_)
              rw [List.mem_reverse]
              exact List.mem_map.mpr ⟨a, by rw [hmu]; exact ha, rfl⟩
            · rcases hclosed v hv a ha with h | h
              · exact Or.inl (List.mem_cons_of_mem _ h)
              · rcases List.mem_cons.mp h with heq | h
                · exact Or.inl (heq ▸ List.mem_cons_self _ _)
                · exact Or.inr (List.mem_append_right _ h)
          · rcases hq₀ with h | h
            · exact Or.inl (List.mem_cons_of_mem _ h)
            · rcases List.mem_cons.mp h with heq | h
              · exact Or.inl (heq ▸ List.mem_cons_self _ _)
              · exact Or.inr (List.mem_append_right _ h)

theorem expand_ok_dfsLoop {m m' : Fst} {other : Nat}
    (hother : findCode m.isymbols otherSym = some other)
    (hok : expand_other_symbols m = .ok m') :
    dfsLoop other (ordinaryCodes m.isymbols) (totalArcs m + 2) [] [m.start] m = .ok m' := by
  unfold expand_other_symbols at hok
  split at hok
  · exact Except.noConfusion hok
  · rename_i x heq
    rw [hother] at heq
    injection heq with heq
    subst heq
    split at hok
    · exact Except.noConfusion hok
    · exact hok

/-- C10: whenever the input symbol table of the automaton does not contain the symbol
<other>, `expand_other_symbols` fails with the `KeyError` of the lookup
`symb_map['<other>']` (fststr.py line 127), whether or not any arc carries that label;
the failure happens before the traversal starts, so the automaton is not mutated (in
this pure model, no automaton is produced at all). -/
theorem expand_missing_other_keyerror (m : Fst)
    (h : findCode m.isymbols otherSym = none) :
    expand_other_symbols m = .error "KeyError" := by
  unfold expand_other_symbols
  rw [h]

theorem expand_missing_other_keyerror_witness :
    expand_other_symbols fstNoOther = .error "KeyError" :=
  expand_missing_other_keyerror fstNoOther (by decide)

/-- C2: let `m'` be the automaton produced by `expand_other_symbols` on `m`.  Every
state `q` reachable from the start state that had an outgoing arc labelled with the
other code (`lastOther` returns the arc `o` that the python `arcs` dict retains) ends
up with: its original arcs followed exactly by the synthesized arcs; an outgoing arc
for EVERY ordinary (non-special, hence non-epsilon, non-other) code of the alphabet;
and every synthesized arc targets the target state of the other-arc. -/
theorem expand_other_covers_reachable (m m' : Fst) (other : Nat) (q : Nat) (o : Arc)
    (hother : findCode m.isymbols otherSym = some other)
    (hok : expand_other_symbols m = .ok m')
    (hreach : Reach m q)
    (ho : lastOther other (m.arcsOf q) = some o) :
    m'.arcsOf q = m.arcsOf q ++ mkNewArcs other (ordinaryCodes m.isymbols) (m.arcsOf q) o ∧
    (∀ k ∈ ordinaryCodes m.isymbols, ∃ a ∈ m'.arcsOf q, a.ilabel = k) ∧
    (∀ a ∈ mkNewArcs other (ordinaryCodes m.isymbols) (m.arcsOf q) o,
      a.nextstate = o.nextstate) := by
  have hproc := dfsLoop_expands other (ordinaryCodes m.isymbols) m
    (totalArcs m + 2) [] [m.start] m m' (expand_ok_dfsLoop hother hok)
    (fun _ _ => rfl) (fun p hp => absurd hp (List.not_mem_nil _))
    (fun p hp => absurd hp (List.not_mem_nil _))
    m.start q (Or.inr (List.mem_cons_self _ _)) hreach
  rw [processArcs_some ho] at hproc
  refine ⟨hproc, ?_, ?_⟩
  · intro k hk
    by_cases hkin : k ∈ (m.arcsOf q).map Arc.ilabel
    · rcases List.mem_map.mp hkin with ⟨a, ha, hak⟩
      exact ⟨a, by rw [hproc]; exact List.mem_append_left _ ha, hak⟩
    · exact ⟨_, by rw [hproc]; exact List.mem_append_right _ (mkNewArcs_covers hk hkin), rfl⟩
  · intro a ha
    exact (mem_mkNewArcs ha).1

theorem expand_other_covers_reachable_witness :
    fstWExp.arcsOf 0 = fstW.arcsOf 0 ++
      mkNewArcs 1 (ordinaryCodes fstW.isymbols) (fstW.arcsOf 0) ⟨1, 1, 1⟩ ∧
    (∀ k ∈ ordinaryCodes fstW.isymbols, ∃ a ∈ fstWExp.arcsOf 0, a.ilabel = k) ∧
    (∀ a ∈ mkNewArcs 1 (ordinaryCodes fstW.isymbols) (fstW.arcsOf 0) ⟨1, 1, 1⟩,
      a.nextstate = (⟨1, 1, 1⟩ : Arc).nextstate) :=
  expand_other_covers_reachable fstW fstWExp 1 0 ⟨1, 1, 1⟩ (by decide) rfl
    Relation.ReflTransGen.refl (by decide)

/-- C3: for every reachable state `q` with an other-arc `o` and every ordinary code
`k` not already used as an input label at `q`, the synthesized arcs (appended after
the original arcs) contain the arc with input label `k`, target `o.nextstate`, and
output label `o.olabel` — except that when `o.olabel` is itself the other code the
output label is `k` (identity mapping); moreover every synthesized arc with input
label `k` has exactly that output label. -/
theorem expand_other_output_identity (m m' : Fst) (other : Nat) (q : Nat) (o : Arc)
    (k : Nat)
    (hother : findCode m.isymbols otherSym = some other)
    (hok : expand_other_symbols m = .ok m')
    (hreach : Reach m q)
    (ho : lastOther other (m.arcsOf q) = some o)
    (hk : k ∈ ordinaryCodes m.isymbols)
    (hkn : k ∉ (m.arcsOf q).map Arc.ilabel) :
    m'.arcsOf q = m.arcsOf q ++ mkNewArcs other (ordinaryCodes m.isymbols) (m.arcsOf q) o ∧
    (⟨k, if o.olabel = other then k else o.olabel, o.nextstate⟩ : Arc) ∈
      mkNewArcs other (ordinaryCodes m.isymbols) (m.arcsOf q) o ∧
    (∀ a ∈ mkNewArcs other (ordinaryCodes m.isymbols) (m.arcsOf q) o,
      a.ilabel = k → a.olabel = (if o.olabel = other then k else o.olabel)) := by
  have hproc := dfsLoop_expands other (ordinaryCodes m.isymbols) m
    (totalArcs m + 2) [] [m.start] m m' (expand_ok_dfsLoop hother hok)
    (fun _ _ => rfl) (fun p hp => absurd hp (List.not_mem_nil _))
    (fun p hp => absurd hp (List.not_mem_nil _))
    m.start q (Or.inr (List.mem_cons_self _ _)) hreach
  rw [processArcs_some ho] at hproc
  refine ⟨hproc, mkNewArcs_covers hk hkn, ?_⟩
  · intro a ha hak
    rcases mem_mkNewArcs ha with ⟨_, holab, _, _⟩
    rw [holab, hak]

theorem expand_other_output_identity_witness :
    fstWExp.arcsOf 0 = fstW.arcsOf 0 ++
      mkNewArcs 1 (ordinaryCodes fstW.isymbols) (fstW.arcsOf 0) ⟨1, 1, 1⟩ ∧
    (⟨2, if (⟨1, 1, 1⟩ : Arc).olabel = 1 then 2 else (⟨1, 1, 1⟩ : Arc).olabel,
        (⟨1, 1, 1⟩ : Arc).nextstate⟩ : Arc) ∈
      mkNewArcs 1 (ordinaryCodes fstW.isymbols) (fstW.arcsOf 0) ⟨1, 1, 1⟩ ∧
    (∀ a ∈ mkNewArcs 1 (ordinaryCodes fstW.isymbols) (fstW.arcsOf 0) ⟨1, 1, 1⟩,
      a.ilabel = 2 →
        a.olabel = (if (⟨1, 1, 1⟩ : Arc).olabel = 1 then 2 else (⟨1, 1, 1⟩ : Arc).olabel)) :=
  expand_other_output_identity fstW fstWExp 1 0 ⟨1, 1, 1⟩ 2 (by decide) rfl
    Relation.ReflTransGen.refl (by decide) (by decide) (by decide)

/-! ### Reachability closure: correctness of the modelled cyclicity test -/

theorem succs_subset_univ (m : Fst) (q : Nat) :
    (succsOf m q).toFinset ⊆ univFinset m := by
  intro x hx
  rcases List.mem_map.mp (List.mem_toFinset.mp hx) with ⟨a, ha, rfl⟩
  exact List.mem_toFinset.mpr
    (List.mem_cons_of_mem _ (List.mem_map.mpr ⟨a, mem_flatten_of_mem_arcsOf ha, rfl⟩))

theorem start_mem_univ (m : Fst) : m.start ∈ univFinset m :=
  List.mem_toFinset.mpr (List.mem_cons_self _ _)

theorem reach_mem_univ {m : Fst} {q : Nat} (h : Reach m q) : q ∈ univFinset m := by
  induction h with
  | refl => exact start_mem_univ m
  | tail h1 h2 ih =>
    rcases h2 with ⟨a, ha, rfl⟩
    exact List.mem_toFinset.mpr
      (List.mem_cons_of_mem _ (List.mem_map.mpr ⟨a, mem_flatten_of_mem_arcsOf ha, rfl⟩))

theorem subset_stepF (m : Fst) (S : Finset Nat) : S ⊆ stepF m S :=
  Finset.subset_union_left

theorem stepF_subset_univ {m : Fst} {S : Finset Nat} (h : S ⊆ univFinset m) :
    stepF m S ⊆ univFinset m :=
  Finset.union_subset h (Finset.biUnion_subset.mpr (fun q _ => succs_subset_univ m q))

theorem iter_subset_univ {m : Fst} {S : Finset Nat} (h : S ⊆ univFinset m) :
    ∀ n, (stepF m)^[n] S ⊆ univFinset m := by
  intro n
  induction n with
  | zero => exact h
  | succ n ih => rw [Function.iterate_succ_apply']; exact stepF_subset_univ ih

theorem subset_iter (m : Fst) (S : Finset Nat) : ∀ n, S ⊆ (stepF m)^[n] S := by
  intro n
  induction n with
  | zero => exact fun x hx => hx
  | succ n ih =>
    rw [Function.iterate_succ_apply']
    exact fun x hx => subset_stepF m _ (ih hx)

theorem iterate_of_fix {m : Fst} {S : Finset Nat} (h : stepF m S = S) :
    ∀ n, (stepF m)^[n] S = S := by
  intro n
  induction n with
  | zero => rfl
  | succ n ih => rw [Function.iterate_succ_apply', ih, h]

theorem stepF_fix_at_card {m : Fst} {S : Finset Nat} (hS : S ⊆ univFinset m) :
    stepF m ((stepF m)^[(univFinset m).card] S) = (stepF m)^[(univFinset m).card] S := by
  by_contra hfix
  have hnofix : ∀ i, i ≤ (univFinset m).card →
      stepF m ((stepF m)^[i] S) ≠ (stepF m)^[i] S := by
    intro i hi hfi
    apply hfix
    have hsplit : (stepF m)^[(univFinset m).card] S =
        (stepF m)^[(univFinset m).card - i] ((stepF m)^[i] S) := by
      rw [← Function.iterate_add_apply]
      congr 1
      omega
    rw [hsplit, iterate_of_fix hfi]
    exact hfi
  have hgrow : ∀ i, i ≤ (univFinset m).card + 1 → i ≤ ((stepF m)^[i] S).card := by
    intro i
    induction i with
    | zero => intro _; exact Nat.zero_le _
    | succ i ihc =>
      intro hi
      have h1 : i ≤ ((stepF m)^[i] S).card := ihc (by omega)
      have hss : (stepF m)^[i] S ⊂ (stepF m)^[i + 1] S := by
        rw [Function.iterate_succ_apply']
        exact ssubset_iff_subset_ne.mpr
          ⟨subset_stepF m _, fun h => (hnofix i (by omega) h.symm)⟩
      have h2 := Finset.card_lt_card hss
      omega
  have hK1 := hgrow ((univFinset m).card + 1) (Nat.le_refl _)
  have hle : (((stepF m)^[(univFinset m).card + 1]) S).card ≤ (univFinset m).card :=
    Finset.card_le_card (iter_subset_univ hS _)
  omega

theorem mem_iter_sound {m : Fst} {S : Finset Nat} :
    ∀ {n : Nat} {q : Nat}, q ∈ (stepF m)^[n] S → ∃ s ∈ S, ReachF m s q := by
  intro n
  induction n with
  | zero => exact fun hq => ⟨_, hq, Relation.ReflTransGen.refl⟩
  | succ n ih =>
    intro q hq
    rw [Function.iterate_succ_apply'] at hq
    rcases Finset.mem_union.mp hq with hq | hq
    · exact ih hq
    · rcases Finset.mem_biUnion.mp hq with ⟨p, hp, hqp⟩
      rcases ih hp with ⟨s, hs, hpath⟩
      rcases List.mem_map.mp (List.mem_toFinset.mp hqp) with ⟨a, ha, rfl⟩
      exact ⟨s, hs, Relation.ReflTransGen.tail hpath ⟨a, ha, rfl⟩⟩

theorem mem_reachClosure_sound {m : Fst} {S : Finset Nat} {q : Nat}
    (h : q ∈ reachClosure m S) : ∃ s ∈ S, ReachF m s q :=
  mem_iter_sound h

theorem mem_reachClosure_complete {m : Fst} {S : Finset Nat} (hS : S ⊆ univFinset m)
    {s q : Nat} (hs : s ∈ S) (h : ReachF m s q) : q ∈ reachClosure m S := by
  induction h with
  | refl => exact subset_iter m S _ hs
  | tail h1 h2 ih =>
    rcases h2 with ⟨a, ha, rfl⟩
    have hmem : a.nextstate ∈ stepF m (reachClosure m S) :=
      Finset.mem_union.mpr (Or.inr (Finset.mem_biUnion.mpr
        ⟨_, ih, List.mem_toFinset.mpr (List.mem_map.mpr ⟨a, ha, rfl⟩)⟩))
    rwa [reachClosure, stepF_fix_at_card hS] at hmem

/-- Correctness of the modelled engine cyclicity test: it fires exactly when some
state reachable from the start state lies on a cycle. -/
theorem cyclic_iff (m : Fst) :
    cyclicB m = true ↔ ∃ q, Reach m q ∧ Relation.TransGen (stepRel m) q q := by
  rw [cyclicB, decide_eq_true_iff, ← Finset.nonempty_iff_ne_empty,
    Finset.filter_nonempty_iff]
  constructor
  · rintro ⟨q, hq, hcyc⟩
    rcases mem_reachClosure_sound hq with ⟨s, hs, hpath⟩
    rcases Finset.mem_singleton.mp hs with rfl
    refine ⟨q, hpath, ?_⟩
    rcases mem_reachClosure_sound hcyc with ⟨v, hv, hvq⟩
    rcases List.mem_map.mp (List.mem_toFinset.mp hv) with ⟨a, ha, rfl⟩
    exact Relation.TransGen.head'_iff.mpr ⟨a.nextstate, ⟨a, ha, rfl⟩, hvq⟩
  · rintro ⟨q, hreach, hcyc⟩
    refine ⟨q, ?_, ?_⟩
    · exact mem_reachClosure_complete
        (Finset.singleton_subset_iff.mpr (start_mem_univ m))
        (Finset.mem_singleton.mpr rfl) hreach
    · rcases Relation.TransGen.head'_iff.mp hcyc with ⟨v, hv, hpath⟩
      rcases hv with ⟨a, ha, rfl⟩
      exact mem_reachClosure_complete (succs_subset_univ m q)
        (List.mem_toFinset.mpr (List.mem_map.mpr ⟨a, ha, rfl⟩)) hpath

/-! ### Path-extractor lemmas -/

theorem pathTarget_concat {path : Path} {x y : Nat} :
    pathTarget (path ++ [(x, y)]) = x := by
  rw [pathTarget, List.getLastD_concat]

theorem dfsPaths_zero {m : Fst} {path : Path} {paths : List Path} :
    dfsPaths m 0 path paths = none := rfl

theorem dfsPaths_succ_leaf {m : Fst} {f : Nat} {path : Path} {paths : List Path}
    (h : m.arcsOf (pathTarget path) = []) :
    dfsPaths m (f + 1) path paths = some (paths ++ [path]) := by
  show (match m.arcsOf (pathTarget path) with
    | [] => some (paths ++ [path])
    | arcs => dfsArcsGo (dfsPaths m f) path arcs paths) = some (paths ++ [path])
  rw [h]

theorem dfsPaths_succ_node {m : Fst} {f : Nat} {path : Path} {paths : List Path}
    {a : Arc} {rest : List Arc} (h : m.arcsOf (pathTarget path) = a :: rest) :
    dfsPaths m (f + 1) path paths = dfsArcsGo (dfsPaths m f) path (a :: rest) paths := by
  show (match m.arcsOf (pathTarget path) with
    | [] => some (paths ++ [path])
    | arcs => dfsArcsGo (dfsPaths m f) path arcs paths) = _
  rw [h]

theorem enum_zero {m : Fst} {path : Path} : enumCompletePaths m 0 path = [] := rfl

theorem enum_succ_leaf {m : Fst} {f : Nat} {path : Path}
    (h : m.arcsOf (pathTarget path) = []) :
    enumCompletePaths m (f + 1) path = [path] := by
  show (match m.arcsOf (pathTarget path) with
    | [] => [path]
    | arcs => (arcs.map
        (fun (a : Arc) => enumCompletePaths m f (path ++ [(a.nextstate, a.olabel)]))).flatten) = _
  rw [h]

theorem enum_succ_node {m : Fst} {f : Nat} {path : Path} {a : Arc} {rest : List Arc}
    (h : m.arcsOf (pathTarget path) = a :: rest) :
    enumCompletePaths m (f + 1) path =
      ((a :: rest).map
        (fun a => enumCompletePaths m f (path ++ [(a.nextstate, a.olabel)]))).flatten := by
  show (match m.arcsOf (pathTarget path) with
    | [] => [path]
    | arcs => (arcs.map
        (fun (a : Arc) => enumCompletePaths m f (path ++ [(a.nextstate, a.olabel)]))).flatten) = _
  rw [h]

theorem dfsArcsGo_eq {m : Fst} {f : Nat}
    (ih : ∀ (path : Path) (reg out : List Path), dfsPaths m f path reg = some out →
      out = reg ++ enumCompletePaths m f path) :
    ∀ (arcs : List Arc) (path : Path) (reg out : List Path),
      dfsArcsGo (dfsPaths m f) path arcs reg = some out →
      out = reg ++
        (arcs.map (fun a => enumCompletePaths m f (path ++ [(a.nextstate, a.olabel)]))).flatten := by
  intro arcs
  induction arcs with
  | nil =>
    intro path reg out h
    injection h with h
    rw [← h]
    simp
  | cons a rest iha =>
    intro path reg out h
    rw [dfsArcsGo] at h
    split at h
    · exact Option.noConfusion h
    · rename_i ps hps
      have h1 := ih _ _ _ hps
      have h2 := iha path ps out h
      rw [h2, h1, List.map_cons, List.flatten_cons, List.append_assoc]

theorem dfsPaths_eq_enum (m : Fst) :
    ∀ (f : Nat) (path : Path) (reg out : List Path),
      dfsPaths m f path reg = some out → out = reg ++ enumCompletePaths m f path := by
  intro f
  induction f with
  | zero =>
    intro path reg out h
    rw [dfsPaths_zero] at h
    exact Option.noConfusion h
  | succ f ih =>
    intro path reg out h
    cases harcs : m.arcsOf (pathTarget path) with
    | nil =>
      rw [dfsPaths_succ_leaf harcs] at h
      injection h with h
      rw [← h, enum_succ_leaf harcs]
    | cons a rest =>
      rw [dfsPaths_succ_node harcs] at h
      rw [enum_succ_node harcs]
      exact dfsArcsGo_eq ih (a :: rest) path reg out h

theorem mem_self_reachClosure (m : Fst) (t : Nat) : t ∈ reachClosure m {t} :=
  subset_iter m {t} _ (Finset.mem_singleton.mpr rfl)

theorem mu_pos (m : Fst) (t : Nat) : 0 < (reachClosure m {t}).card :=
  Finset.card_pos.mpr ⟨t, mem_self_reachClosure m t⟩

theorem mu_bound {m : Fst} {t : Nat} (h : Reach m t) :
    (reachClosure m {t}).card ≤ (univFinset m).card :=
  Finset.card_le_card
    (iter_subset_univ (Finset.singleton_subset_iff.mpr (reach_mem_univ h)) _)

theorem mu_decrease {m : Fst} {t : Nat} {a : Arc}
    (hreach : Reach m t)
    (hacyc : ∀ p, Reach m p → ¬ Relation.TransGen (stepRel m) p p)
    (ha : a ∈ m.arcsOf t) :
    (reachClosure m {a.nextstate}).card < (reachClosure m {t}).card := by
  have htU : t ∈ univFinset m := reach_mem_univ hreach
  have hsub : reachClosure m {a.nextstate} ⊆ reachClosure m {t} := by
    intro x hx
    rcases mem_reachClosure_sound hx with ⟨v, hv, hpath⟩
    rcases Finset.mem_singleton.mp hv with rfl
    exact mem_reachClosure_complete (Finset.singleton_subset_iff.mpr htU)
      (Finset.mem_singleton.mpr rfl)
      (Relation.ReflTransGen.head ⟨a, ha, rfl⟩ hpath)
  have htnot : t ∉ reachClosure m {a.nextstate} := by
    intro hmem
    rcases mem_reachClosure_sound hmem with ⟨v, hv, hpath⟩
    rcases Finset.mem_singleton.mp hv with rfl
    exact hacyc t hreach (Relation.TransGen.head'_iff.mpr ⟨a.nextstate, ⟨a, ha, rfl⟩, hpath⟩)
  exact Finset.card_lt_card ((Finset.ssubset_iff_of_subset hsub).mpr
    ⟨t, mem_self_reachClosure m t, htnot⟩)

theorem dfsArcsGo_total {m : Fst} {f : Nat}
    (hacyc : ∀ p, Reach m p → ¬ Relation.TransGen (stepRel m) p p)
    (hrec : ∀ (path : Path) (reg : List Path),
      Reach m (pathTarget path) → (reachClosure m {pathTarget path}).card ≤ f →
      ∃ out, dfsPaths m f path reg = some out)
    (path : Path) (ht : Reach m (pathTarget path))
    (hmu : (reachClosure m {pathTarget path}).card ≤ f + 1) :
    ∀ (arcs : List Arc), (∀ b ∈ arcs, b ∈ m.arcsOf (pathTarget path)) →
      ∀ reg, ∃ out, dfsArcsGo (dfsPaths m f) path arcs reg = some out := by
  intro arcs
  induction arcs with
  | nil => exact fun _ reg => ⟨reg, rfl⟩
  | cons a rest iha =>
    intro hsub reg
    have haof : a ∈ m.arcsOf (pathTarget path) := hsub a (List.mem_cons_self _ _)
    have hchild : Reach m a.nextstate :=
      Relation.ReflTransGen.tail ht ⟨a, haof, rfl⟩
    have hmu' : (reachClosure m {a.nextstate}).card ≤ f := by
      have := mu_decrease ht hacyc haof
      omega
    obtain ⟨ps, hps⟩ := hrec (path ++ [(a.nextstate, a.olabel)]) reg
      (by rw [pathTarget_concat]; exact hchild)
      (by rw [pathTarget_concat]; exact hmu')
    obtain ⟨out, hout⟩ := iha (fun b hb => hsub b (List.mem_cons_of_mem _ hb)) ps
    refine ⟨out, ?_⟩
    rw [dfsArcsGo, hps]
    exact hout

theorem dfsPaths_total (m : Fst)
    (hacyc : ∀ p, Reach m p → ¬ Relation.TransGen (stepRel m) p p) :
    ∀ (f : Nat) (path : Path) (reg : List Path),
      Reach m (pathTarget path) → (reachClosure m {pathTarget path}).card ≤ f →
      ∃ out, dfsPaths m f path reg = some out := by
  intro f
  induction f with
  | zero =>
    intro path reg ht hf
    have := mu_pos m (pathTarget path)
    omega
  | succ f ih =>
    intro path reg ht hf
    cases harcs : m.arcsOf (pathTarget path) with
    | nil => exact ⟨_, dfsPaths_succ_leaf harcs⟩
    | cons a rest =>
      obtain ⟨out, hout⟩ := dfsArcsGo_total hacyc ih path ht hf (a :: rest)
        (fun b hb => by rw [harcs]; exact hb) reg
      exact ⟨out, by rw [dfsPaths_succ_node harcs]; exact hout⟩

theorem mem_enum_completes (m : Fst) :
    ∀ (f : Nat) (path p : Path),
      p ∈ enumCompletePaths m f path → Completes m path p := by
  intro f
  induction f with
  | zero =>
    intro path p h
    rw [enum_zero] at h
    exact absurd h (List.not_mem_nil _)
  | succ f ih =>
    intro path p h
    cases harcs : m.arcsOf (pathTarget path) with
    | nil =>
      rw [enum_succ_leaf harcs] at h
      have hp := List.mem_singleton.mp h
      subst hp
      exact Completes.done _ harcs
    | cons a rest =>
      rw [enum_succ_node harcs] at h
      rcases List.mem_flatten.mp h with ⟨l, hl, hpl⟩
      rcases List.mem_map.mp hl with ⟨b, hb, rfl⟩
      exact Completes.step (by rw [harcs]; exact hb) (ih _ _ hpl)

theorem completes_mem_enum (m : Fst)
    (hacyc : ∀ p, Reach m p → ¬ Relation.TransGen (stepRel m) p p)
    {path p : Path} (h : Completes m path p) :
    ∀ (f : Nat), Reach m (pathTarget path) →
      (reachClosure m {pathTarget path}).card ≤ f →
      p ∈ enumCompletePaths m f path := by
  induction h with
  | done pa harcs =>
    intro f ht hf
    cases f with
    | zero =>
      have := mu_pos m (pathTarget pa)
      omega
    | succ f =>
      rw [enum_succ_leaf harcs]
      exact List.mem_singleton.mpr rfl
  | @step pa full b hb hcomp ih =>
    intro f ht hf
    cases f with
    | zero =>
      have := mu_pos m (pathTarget pa)
      omega
    | succ f =>
      cases harcs : m.arcsOf (pathTarget pa) with
      | nil => rw [harcs] at hb; exact absurd hb (List.not_mem_nil _)
      | cons a rest =>
        rw [enum_succ_node harcs]
        apply List.mem_flatten.mpr
        refine ⟨_, List.mem_map.mpr ⟨b, by rw [← harcs]; exact hb, rfl⟩, ?_⟩
        apply ih
        · rw [pathTarget_concat]
          exact Relation.ReflTransGen.tail ht ⟨b, hb, rfl⟩
        · rw [pathTarget_concat]
          have := mu_decrease ht hacyc hb
          omega

/-- C5: on every automaton with a cycle reachable from the start state,
`all_strings_from_chain` fails with the `FstError` of fststr.py line 200.  The check
precedes the `dfs` call, so the traversal is never entered and no string list — not
even a part of one — is produced. -/
theorem all_strings_cyclic_error (m : Fst) (q : Nat)
    (hreach : Reach m q) (hcyc : Relation.TransGen (stepRel m) q q) :
    all_strings_from_chain m = .error cyclicMsg := by
  have hc : cyclicB m = true := (cyclic_iff m).mpr ⟨q, hreach, hcyc⟩
  simp [all_strings_from_chain, hc]

theorem all_strings_cyclic_error_witness :
    all_strings_from_chain fstLoop = .error cyclicMsg :=
  all_strings_cyclic_error fstLoop 0 Relation.ReflTransGen.refl
    (Relation.TransGen.single ⟨⟨1, 1, 0⟩, List.mem_cons_self _ _, rfl⟩)

/-- C6: on every automaton without a reachable cycle, `all_strings_from_chain`
(whose nested `dfs` always starts from its freshly created empty accumulator)
succeeds and returns one string per complete start-to-terminal traversal: the
returned path list is exactly the depth-first enumeration of complete paths, a path
is returned iff it is a complete path from the start state, and each returned string
is the rendering (concatenation of the symbols of the non-zero output labels) of its
path.  So with exactly k complete paths, exactly k strings are returned, duplicates
counted separately. -/
theorem all_strings_acyclic_paths (m : Fst)
    (hacyc : ∀ p, Reach m p → ¬ Relation.TransGen (stepRel m) p p) :
    ∃ ps : List Path,
      all_strings_from_chain m = .ok (ps.map (render m.isymbols)) ∧
      ps = enumCompletePaths m (dfsFuel m) [(m.start, 0)] ∧
      ∀ p : Path, p ∈ ps ↔ Completes m [(m.start, 0)] p := by
  have hcB : cyclicB m = false := by
    by_contra h
    have h' : cyclicB m = true := by
      revert h
      cases cyclicB m <;> simp
    rcases (cyclic_iff m).mp h' with ⟨q, hq, hc⟩
    exact hacyc q hq hc
  have hst : pathTarget [(m.start, 0)] = m.start := rfl
  have hreach0 : Reach m (pathTarget [(m.start, 0)]) := by
    rw [hst]
    exact Relation.ReflTransGen.refl
  have hmu0 : (reachClosure m {pathTarget [(m.start, 0)]}).card ≤ dfsFuel m := by
    rw [hst, dfsFuel]
    have := mu_bound (show Reach m m.start from Relation.ReflTransGen.refl)
    omega
  obtain ⟨out, hout⟩ := dfsPaths_total m hacyc (dfsFuel m) [(m.start, 0)] [] hreach0 hmu0
  have henum := dfsPaths_eq_enum m (dfsFuel m) [(m.start, 0)] [] out hout
  refine ⟨out, ?_, by simpa using henum, ?_⟩
  · simp [all_strings_from_chain, hcB, hout]
  · intro p
    constructor
    · intro hp
      rw [henum] at hp
      exact mem_enum_completes m _ _ _ (by simpa using hp)
    · intro hc
      rw [henum]
      simpa using completes_mem_enum m hacyc hc (dfsFuel m) hreach0 hmu0

theorem all_strings_acyclic_paths_witness :
    ∃ ps : List Path,
      all_strings_from_chain fstBr = .ok (ps.map (render fstBr.isymbols)) ∧
      ps = enumCompletePaths fstBr (dfsFuel fstBr) [(fstBr.start, 0)] ∧
      ∀ p : Path, p ∈ ps ↔ Completes fstBr [(fstBr.start, 0)] p :=
  all_strings_acyclic_paths fstBr
    (fun q hq hc => absurd ((cyclic_iff fstBr).mpr ⟨q, hq, hc⟩) (by decide))

/-- C9 counterexample: the claimed cross-invocation leak does not exist.  The `def
dfs(graph, path, paths=[])` statement sits INSIDE `all_strings_from_chain`
(fststr.py line 188), so python re-evaluates the default `[]` at every invocation of
the outer function; successive invocations share no state, and in this (therefore
stateless, pure) model a second invocation is the very same computation as the
first.  Concretely, on the automaton `fstA` every invocation — first or second —
returns exactly the single string A, never the doubled list `[A, A]` that leaked
leftovers would produce, so two successive invocations return equal results. -/
theorem all_strings_no_leak_cex :
    all_strings_from_chain fstA = Except.ok [chars "A"] ∧
    ¬ all_strings_from_chain fstA = Except.ok [chars "A", chars "A"] := by
  refine ⟨rfl, ?_⟩
  intro h
  have h1 : all_strings_from_chain fstA = Except.ok [chars "A"] := rfl
  rw [h1] at h
  injection h with h
  exact absurd h (by decide)

/-- C9, amended: within one invocation the recursion of `dfs` does thread a single
mutable accumulator, and whatever that accumulator already holds is prepended to the
freshly enumerated results — content `reg` left in a shared accumulator WOULD leak
into the output (the latent pattern the spec warns about).  But the accumulator is
the default of a `def` statement nested inside `all_strings_from_chain`, re-created
empty at every invocation, so the strings any invocation returns are built from the
fresh empty seed alone: every invocation of `all_strings_from_chain` on the same
automaton — a first and a second alike — returns the same result. -/
theorem all_strings_fresh_accumulator (m : Fst) (reg out out0 : List Path)
    (hseed : dfsPaths m (dfsFuel m) [(m.start, 0)] reg = some out)
    (hfresh : dfsPaths m (dfsFuel m) [(m.start, 0)] [] = some out0)
    (hcyc : cyclicB m = false) :
    out = reg ++ out0 ∧
    all_strings_from_chain m = .ok (out0.map (render m.isymbols)) := by
  have h1 := dfsPaths_eq_enum m (dfsFuel m) [(m.start, 0)] reg out hseed
  have h2 := dfsPaths_eq_enum m (dfsFuel m) [(m.start, 0)] [] out0 hfresh
  constructor
  · rw [h1, h2]
    simp
  · simp [all_strings_from_chain, hcyc, hfresh]

theorem all_strings_fresh_accumulator_witness :
    ([[(9, 9)], [(0, 0), (1, 1)]] : List Path) =
      ([[(9, 9)]] : List Path) ++ ([[(0, 0), (1, 1)]] : List Path) ∧
    all_strings_from_chain fstA =
      .ok (([[(0, 0), (1, 1)]] : List Path).map (render fstA.isymbols)) :=
  all_strings_fresh_accumulator fstA [[(9, 9)]] [[(9, 9)], [(0, 0), (1, 1)]]
    [[(0, 0), (1, 1)]] (by decide) (by decide) (by decide)

end FstStr
